import Mathlib

/-!
Shallow embedding of the `math_util` Rust crate (exact rational arithmetic and a
stepwise expression evaluator), together with theorems settling the frozen claims
about its specification.

Conventions of the embedding:
* Rust's `u32` values are modelled as `Nat`, with every arithmetic operation that
  can overflow wrapped by `wrap32` (release-mode two's-complement wrapping).
* Fallible Rust code returns an explicit outcome type; a `.unwrap()` that can fail
  and an arithmetic panic are modelled by a distinct `panicked` outcome.
* Strings are `List Char`; the anchored regexes of the source are embedded as
  deterministic matchers (the regex token classes - whitespace, digits, the
  operator symbols - are pairwise disjoint, so greedy maximal-munch scanning
  coincides with the regex backtracking semantics).
* Loops whose termination is not structural (long division, the evaluator's
  rewrite loop) take an explicit fuel argument, chosen large enough at every
  concrete use.
-/

/-- Modulus of Rust's `u32` type. -/
def U32MOD : Nat := 4294967296

/-- Wrapping of a `u32` arithmetic result (release-mode overflow semantics). -/
def wrap32 (n : Nat) : Nat := n % U32MOD

/-- Fuel-driven Euclid recursion; models `gcf` from src/src/math.rs (lines 99-105):
`if b == 0 { a } else { gcf(b, a % b) }`. -/
def gcfAux : Nat → Nat → Nat → Nat
  | 0, a, _ => a
  | fuel + 1, a, b => if b = 0 then a else gcfAux fuel b (a % b)

/-- `gcf` from src/src/math.rs; the fuel `b + 1` always suffices because the second
argument strictly decreases. -/
def gcf (a b : Nat) : Nat := gcfAux (b + 1) a b

/-- `lcm` from src/src/math.rs (lines 107-109): `(a / gcf(a, b)) * b`, a `u32`
product that wraps on overflow. -/
def lcmU32 (a b : Nat) : Nat := wrap32 ((a / gcf a b) * b)

/-- `PlaceValue` from src/src/math.rs. -/
inductive PlaceValue where
  | Millions | HundredThousands | TenThousands | Thousands | Hundreds | Tens | Ones
  | Tenths | Hundredths | Thousandths | TenThousandths | HundredThousandths | Millionths
deriving DecidableEq, Repr

/-- `NumberDisplayFormat` from src/src/rational_number.rs (lines 14-19). -/
inductive NumberDisplayFormat where
  | decimal (place : Option PlaceValue)
  | fraction
  | mixed
deriving DecidableEq, Repr

/-- Modelled from the spec: the crate root that declares the `Error` enum is not under
src/ (only its uses are). The variants `ParseError` and `ParseExpression` appear in
uses in src/src/rational_number.rs and src/src/expression.rs; the spec's
error-handling section additionally names a distinct "not an integer" error kind,
included here as `NotIntegerError` so that distinctness of kinds is expressible. -/
inductive Error where
  | ParseError
  | ParseExpression
  | NotIntegerError
deriving DecidableEq, Repr

/-- `RationalNumber` from src/src/rational_number.rs (lines 21-28): `u32` numerator
and denominator, out-of-band sign, display format. -/
structure RationalNumber where
  numerator : Nat
  denominator : Nat
  negative : Bool
  format : NumberDisplayFormat
deriving DecidableEq, Repr

namespace RationalNumber

/-- `From<u32> for RationalNumber` (src/src/rational_number.rs lines 342-351). -/
def fromU32 (n : Nat) : RationalNumber :=
  ⟨wrap32 n, 1, false, .decimal none⟩

/-- `simplify` (src/src/rational_number.rs lines 158-166): divide numerator and
denominator by their gcf. (When numerator and denominator are both 0 the Rust
divisions panic; every theorem below restricts to denominators ≥ 1.) -/
def simplify (a : RationalNumber) : RationalNumber :=
  ⟨a.numerator / gcf a.numerator a.denominator,
   a.denominator / gcf a.numerator a.denominator,
   a.negative, a.format⟩

/-- `neg` (src/src/rational_number.rs lines 168-175). -/
def neg (a : RationalNumber) : RationalNumber :=
  ⟨a.numerator, a.denominator, !a.negative, a.format⟩

/-- `abs` (src/src/rational_number.rs lines 177-184). -/
def abs (a : RationalNumber) : RationalNumber :=
  ⟨a.numerator, a.denominator, false, a.format⟩

/-- `reciprocal` (src/src/rational_number.rs lines 186-193): swaps numerator and
denominator without guarding against a zero numerator. -/
def reciprocal (a : RationalNumber) : RationalNumber :=
  ⟨a.denominator, a.numerator, a.negative, a.format⟩

/-- `set_display_format` (src/src/rational_number.rs lines 149-156). -/
def setDisplayFormat (a : RationalNumber) (f : NumberDisplayFormat) : RationalNumber :=
  ⟨a.numerator, a.denominator, a.negative, f⟩

/-- `PartialEq for RationalNumber` (src/src/rational_number.rs lines 307-313):
compare the simplified numerator, denominator and sign. -/
def beq (a b : RationalNumber) : Bool :=
  a.simplify.numerator == b.simplify.numerator
    && a.simplify.denominator == b.simplify.denominator
    && a.simplify.negative == b.simplify.negative

end RationalNumber

/-- `evaluated_format` (src/src/rational_number.rs lines 631-637): keep `b`'s format
when `a` simplifies to an integer, else keep `a`'s. -/
def evaluatedFormat (a b : RationalNumber) : NumberDisplayFormat :=
  if a.simplify.denominator = 1 then b.format else a.format

namespace RationalNumber

/-- `ops::Add<RationalNumber>` (src/src/rational_number.rs lines 418-450): common
denominator via `lcm`, magnitudes added for like signs, subtracted (larger minus
smaller, keeping the larger side's sign) for unlike signs. All `u32` products and
sums wrap. -/
def add (a b : RationalNumber) : RationalNumber :=
  let d := lcmU32 a.denominator b.denominator
  let na := wrap32 (a.numerator * (d / a.denominator))
  let nb := wrap32 (b.numerator * (d / b.denominator))
  if a.negative = b.negative then
    ⟨wrap32 (na + nb), d, a.negative, evaluatedFormat a b⟩
  else if nb < na then
    ⟨na - nb, d, a.negative, evaluatedFormat a b⟩
  else
    ⟨nb - na, d, b.negative, evaluatedFormat a b⟩

/-- `ops::Sub<RationalNumber>` (src/src/rational_number.rs lines 452-458):
`self.add(rhs.neg())`. -/
def sub (a b : RationalNumber) : RationalNumber := a.add b.neg

/-- `ops::Mul<RationalNumber>` (src/src/rational_number.rs lines 508-519). -/
def mul (a b : RationalNumber) : RationalNumber :=
  ⟨wrap32 (a.numerator * b.numerator), wrap32 (a.denominator * b.denominator),
   a.negative != b.negative, evaluatedFormat a b⟩

/-- `ops::Div<RationalNumber>` (src/src/rational_number.rs lines 570-581):
cross-multiplication; a zero-valued divisor yields a zero denominator. -/
def div (a b : RationalNumber) : RationalNumber :=
  ⟨wrap32 (a.numerator * b.denominator), wrap32 (a.denominator * b.numerator),
   a.negative != b.negative, evaluatedFormat a b⟩

/-- The `i32` value of a `u32` bit pattern (Rust's `as i32` cast). -/
def toI32 (n : Nat) : Int := if n < 2 ^ 31 then (n : Int) else (n : Int) - 2 ^ 32

/-- Two's-complement wrapping into the `i32` range (release-mode `i32` negation). -/
def wrapI32 (z : Int) : Int := (z + 2 ^ 31) % 2 ^ 32 - 2 ^ 31

/-- `as_i32` (src/src/rational_number.rs lines 48-58): errors with
`Error::ParseError` when the numerator is not divisible by the denominator,
otherwise returns the sign-adjusted quotient. (A zero denominator makes the Rust
`%` panic; the theorems below restrict to denominators ≥ 1.) -/
def asI32 (a : RationalNumber) : Except Error Int :=
  if a.numerator % a.denominator ≠ 0 then
    .error .ParseError
  else
    let q := toI32 (a.numerator / a.denominator)
    .ok (if a.negative then wrapI32 (-q) else q)

end RationalNumber

/-! ### Helper lemmas about `gcf`, `lcmU32` and the addition algorithm -/

theorem gcfAux_eq_gcd : ∀ fuel a b, b < fuel → gcfAux fuel a b = Nat.gcd a b := by
  intro fuel
  induction fuel with
  | zero => intro a b h; omega
  | succ f ih =>
    intro a b h
    by_cases hb : b = 0
    · subst hb; simp [gcfAux]
    · have hmod : a % b < b := Nat.mod_lt _ (Nat.pos_of_ne_zero hb)
      have : gcfAux (f + 1) a b = gcfAux f b (a % b) := by simp [gcfAux, hb]
      rw [this, ih b (a % b) (by omega)]
      rw [Nat.gcd_comm b (a % b), ← Nat.gcd_rec b a, Nat.gcd_comm b a]

theorem gcf_eq_gcd (a b : Nat) : gcf a b = Nat.gcd a b :=
  gcfAux_eq_gcd (b + 1) a b (Nat.lt_succ_self b)

theorem div_gcd_mul_swap (a b : Nat) :
    a / Nat.gcd a b * b = b / Nat.gcd a b * a := by
  by_cases hg : Nat.gcd a b = 0
  · have ha : a = 0 := (Nat.gcd_eq_zero_iff.mp hg).1
    have hb : b = 0 := (Nat.gcd_eq_zero_iff.mp hg).2
    simp [ha, hb]
  · have hpos : 0 < Nat.gcd a b := Nat.pos_of_ne_zero hg
    apply Nat.eq_of_mul_eq_mul_right hpos
    rw [Nat.mul_right_comm (a / Nat.gcd a b) b, Nat.div_mul_cancel (Nat.gcd_dvd_left a b),
      Nat.mul_right_comm (b / Nat.gcd a b) a, Nat.div_mul_cancel (Nat.gcd_dvd_right a b),
      Nat.mul_comm a b]

theorem lcmU32_comm (a b : Nat) : lcmU32 a b = lcmU32 b a := by
  unfold lcmU32
  rw [gcf_eq_gcd, gcf_eq_gcd, Nat.gcd_comm b a, div_gcd_mul_swap]

/-- The left operand's numerator scaled to the common denominator, as computed
inside `add`. -/
def scaledA (a b : RationalNumber) : Nat :=
  wrap32 (a.numerator * (lcmU32 a.denominator b.denominator / a.denominator))

/-- The right operand's numerator scaled to the common denominator, as computed
inside `add`. -/
def scaledB (a b : RationalNumber) : Nat :=
  wrap32 (b.numerator * (lcmU32 a.denominator b.denominator / b.denominator))

theorem add_eq (a b : RationalNumber) :
    a.add b =
      if a.negative = b.negative then
        ⟨wrap32 (scaledA a b + scaledB a b), lcmU32 a.denominator b.denominator,
         a.negative, evaluatedFormat a b⟩
      else if scaledB a b < scaledA a b then
        ⟨scaledA a b - scaledB a b, lcmU32 a.denominator b.denominator,
         a.negative, evaluatedFormat a b⟩
      else
        ⟨scaledB a b - scaledA a b, lcmU32 a.denominator b.denominator,
         b.negative, evaluatedFormat a b⟩ := rfl

theorem scaledA_swap (a b : RationalNumber) : scaledA b a = scaledB a b := by
  unfold scaledA scaledB; rw [lcmU32_comm]

theorem scaledB_swap (a b : RationalNumber) : scaledB b a = scaledA a b := by
  unfold scaledA scaledB; rw [lcmU32_comm]

theorem beq_of_fields (x y : RationalNumber)
    (h1 : x.numerator = y.numerator) (h2 : x.denominator = y.denominator)
    (h3 : x.negative = y.negative) : x.beq y = true := by
  simp [RationalNumber.beq, RationalNumber.simplify, h1, h2, h3]

/-! ### Claim C2: commutativity of addition under the simplification-aware equality -/

/-- Claim C2 (corrected): for rationals with denominators ≥ 1 (as all values on
which Rust's `add` runs without panicking have), `a + b == b + a` holds under the
simplification-aware equality whenever `a` and `b` carry the same sign flag or the
sum's stored magnitude is nonzero. (When `a` and `b` have opposite signs and equal
scaled magnitudes, both sums have magnitude zero but `a + b` keeps `b`'s sign and
`b + a` keeps `a`'s, and `PartialEq` compares the sign, so the claim as stated
fails; see the counterexample.) -/
theorem c2_add_comm_amended (a b : RationalNumber)
    (ha : 1 ≤ a.denominator) (hb : 1 ≤ b.denominator)
    (h : a.negative = b.negative ∨ (a.add b).numerator ≠ 0) :
    (a.add b).beq (b.add a) = true := by
  by_cases hs : a.negative = b.negative
  · rw [add_eq a b, add_eq b a, scaledA_swap a b, scaledB_swap a b,
      lcmU32_comm b.denominator a.denominator, if_pos hs, if_pos hs.symm]
    exact beq_of_fields _ _ (by simp [Nat.add_comm]) rfl hs
  · have hs' : ¬ b.negative = a.negative := fun hh => hs hh.symm
    rw [add_eq a b, add_eq b a, scaledA_swap a b, scaledB_swap a b,
      lcmU32_comm b.denominator a.denominator, if_neg hs, if_neg hs']
    have hnum : (a.add b).numerator ≠ 0 := h.resolve_left hs
    rw [add_eq a b, if_neg hs] at hnum
    by_cases hlt : scaledB a b < scaledA a b
    · rw [if_pos hlt, if_neg (by omega : ¬ scaledA a b < scaledB a b)]
      exact beq_of_fields _ _ rfl rfl rfl
    · rw [if_neg hlt] at hnum ⊢
      have hne : scaledA a b < scaledB a b := by
        simp only [if_neg hlt] at hnum
        omega
      rw [if_pos hne]
      exact beq_of_fields _ _ rfl rfl rfl

/-- Witness for C2's amended theorem at `a = 1/2`, `b = 1/3` (both as parsed from
"1/2" and "1/3"). -/
theorem c2_add_comm_witness :
    1 ≤ (RationalNumber.mk 1 2 false .mixed).denominator
      ∧ 1 ≤ (RationalNumber.mk 1 3 false .mixed).denominator
      ∧ ((RationalNumber.mk 1 2 false .mixed).add
          (RationalNumber.mk 1 3 false .mixed)).beq
         ((RationalNumber.mk 1 3 false .mixed).add
          (RationalNumber.mk 1 2 false .mixed)) = true :=
  ⟨by decide, by decide,
   c2_add_comm_amended _ _ (by decide) (by decide) (Or.inl rfl)⟩

/-- Counterexample to claim C2 as stated: the values parsed from "1/2" and "-1/2"
(both with denominator ≥ 1) give `a + b` with sign flag `true` (zero magnitude,
`b`'s sign) but `b + a` with sign flag `false`, and `PartialEq` distinguishes them. -/
theorem c2_add_comm_cex :
    ((RationalNumber.mk 1 2 false .mixed).add (RationalNumber.mk 1 2 true .mixed)).beq
      ((RationalNumber.mk 1 2 true .mixed).add (RationalNumber.mk 1 2 false .mixed)) = false := by
  decide

/-! ### Claim C3: the denominator ≥ 1 invariant -/

theorem add_denominator (a b : RationalNumber) :
    (a.add b).denominator = lcmU32 a.denominator b.denominator := by
  rw [add_eq]; split_ifs <;> rfl

theorem lcmU32_pos (a b : RationalNumber)
    (ha : 1 ≤ a.denominator) (hb : 1 ≤ b.denominator)
    (hfit : a.denominator / gcf a.denominator b.denominator * b.denominator < U32MOD) :
    1 ≤ lcmU32 a.denominator b.denominator := by
  unfold lcmU32 wrap32
  rw [Nat.mod_eq_of_lt hfit]
  have hg : gcf a.denominator b.denominator ∣ a.denominator := by
    rw [gcf_eq_gcd]; exact Nat.gcd_dvd_left _ _
  have hgpos : 0 < gcf a.denominator b.denominator := by
    rw [gcf_eq_gcd]; exact Nat.gcd_pos_of_pos_left _ ha
  exact Nat.mul_pos (Nat.div_pos (Nat.le_of_dvd ha hg) hgpos) hb

/-- Claim C3 (corrected): with denominators ≥ 1, `simplify`, `neg` and `abs`
preserve the invariant denominator ≥ 1 unconditionally, `add`, `sub` and `mul`
preserve it in the absence of `u32` overflow (the stated product bounds), and the
two operations the counterexample forces conditions on — `div` and `reciprocal` —
preserve it exactly under those conditions: `div` needs a divisor with nonzero
numerator (a zero-valued divisor yields denominator 0) and `reciprocal` a nonzero
numerator. -/
theorem c3_denominator_invariant_amended (a b : RationalNumber)
    (ha : 1 ≤ a.denominator) (hb : 1 ≤ b.denominator) :
    (a.denominator / gcf a.denominator b.denominator * b.denominator < U32MOD →
        1 ≤ (a.add b).denominator ∧ 1 ≤ (a.sub b).denominator)
    ∧ (a.denominator * b.denominator < U32MOD → 1 ≤ (a.mul b).denominator)
    ∧ (1 ≤ b.numerator → a.denominator * b.numerator < U32MOD →
        1 ≤ (a.div b).denominator)
    ∧ (1 ≤ a.numerator → 1 ≤ a.reciprocal.denominator)
    ∧ 1 ≤ a.simplify.denominator
    ∧ 1 ≤ a.neg.denominator
    ∧ 1 ≤ a.abs.denominator := by
  refine ⟨?_, ?_, ?_, fun han => han, ?_, ha, ha⟩
  · intro hadd
    constructor
    · rw [add_denominator]
      exact lcmU32_pos a b ha hb hadd
    · rw [RationalNumber.sub, add_denominator]
      exact lcmU32_pos a b.neg ha hb hadd
  · intro hmul
    show 1 ≤ wrap32 (a.denominator * b.denominator)
    unfold wrap32
    rw [Nat.mod_eq_of_lt hmul]
    exact Nat.mul_pos ha hb
  · intro hbn hdiv
    show 1 ≤ wrap32 (a.denominator * b.numerator)
    unfold wrap32
    rw [Nat.mod_eq_of_lt hdiv]
    exact Nat.mul_pos ha hbn
  · show 1 ≤ a.denominator / gcf a.numerator a.denominator
    have hg : gcf a.numerator a.denominator ∣ a.denominator := by
      rw [gcf_eq_gcd]; exact Nat.gcd_dvd_right _ _
    have hgpos : 0 < gcf a.numerator a.denominator := by
      rw [gcf_eq_gcd]; exact Nat.gcd_pos_of_pos_right _ ha
    exact Nat.div_pos (Nat.le_of_dvd ha hg) hgpos

/-- Witness for C3's amended theorem at `a = 3/4`, `b = -5/6`, discharging every
side condition concretely. -/
theorem c3_denominator_invariant_witness :
    1 ≤ ((RationalNumber.mk 3 4 false .fraction).add
          (RationalNumber.mk 5 6 true .fraction)).denominator
      ∧ 1 ≤ ((RationalNumber.mk 3 4 false .fraction).sub
          (RationalNumber.mk 5 6 true .fraction)).denominator
      ∧ 1 ≤ ((RationalNumber.mk 3 4 false .fraction).mul
          (RationalNumber.mk 5 6 true .fraction)).denominator
      ∧ 1 ≤ ((RationalNumber.mk 3 4 false .fraction).div
          (RationalNumber.mk 5 6 true .fraction)).denominator
      ∧ 1 ≤ (RationalNumber.mk 3 4 false .fraction).reciprocal.denominator
      ∧ 1 ≤ (RationalNumber.mk 3 4 false .fraction).simplify.denominator
      ∧ 1 ≤ (RationalNumber.mk 3 4 false .fraction).neg.denominator
      ∧ 1 ≤ (RationalNumber.mk 3 4 false .fraction).abs.denominator := by
  have h := c3_denominator_invariant_amended (RationalNumber.mk 3 4 false .fraction)
    (RationalNumber.mk 5 6 true .fraction) (by decide) (by decide)
  exact ⟨(h.1 (by decide)).1, (h.1 (by decide)).2, h.2.1 (by decide),
    h.2.2.1 (by decide) (by decide), h.2.2.2.1 (by decide),
    h.2.2.2.2.1, h.2.2.2.2.2.1, h.2.2.2.2.2.2⟩

/-- Counterexample to claim C3 as stated: `a = 1/1` and `b = 0/1` both have
denominator ≥ 1, yet `a / b` has denominator 0 (and so does `b.reciprocal()`). -/
theorem c3_denominator_invariant_cex :
    1 ≤ (RationalNumber.fromU32 1).denominator
      ∧ 1 ≤ (RationalNumber.fromU32 0).denominator
      ∧ ((RationalNumber.fromU32 1).div (RationalNumber.fromU32 0)).denominator = 0
      ∧ (RationalNumber.fromU32 0).reciprocal.denominator = 0 := by
  decide

/-! ### Claim C6: `as_i32` -/

theorem wrapI32_neg_small (n : Nat) (h : n < 2 ^ 31) :
    RationalNumber.wrapI32 (-(n : Int)) = -(n : Int) := by
  unfold RationalNumber.wrapI32
  omega

/-- Claim C6 (corrected): `as_i32` succeeds exactly when the numerator is
divisible by the denominator, but on failure it returns `Error::ParseError` — the
same error kind as parse failures — not a distinct "not an integer" kind (see the
counterexample); and on success the result is the sign-adjusted quotient only for
quotients below 2^31, since the `as i32` cast wraps larger quotients
two's-complement — the last conjunct exhibits 2^31/1 coming back as -2^31.
Stated for denominators ≥ 1 (a zero denominator panics in Rust). -/
theorem c6_as_i32_amended (a : RationalNumber) (ha : 1 ≤ a.denominator) :
    (a.denominator ∣ a.numerator → a.numerator / a.denominator < 2 ^ 31 →
       a.asI32 = .ok (if a.negative then -((a.numerator / a.denominator : Nat) : Int)
                      else ((a.numerator / a.denominator : Nat) : Int)))
    ∧ (¬ a.denominator ∣ a.numerator → a.asI32 = .error .ParseError)
    ∧ (RationalNumber.mk (2 ^ 31) 1 false (.decimal none)).asI32
        = .ok (-(2 ^ 31 : Int)) := by
  refine ⟨?_, ?_, rfl⟩
  · intro hdvd hq
    obtain ⟨k, hk⟩ := hdvd
    have hmod : a.numerator % a.denominator = 0 := by
      rw [hk]; exact Nat.mul_mod_right _ _
    unfold RationalNumber.asI32
    rw [if_neg (not_not_intro hmod)]
    have ht : RationalNumber.toI32 (a.numerator / a.denominator)
        = ((a.numerator / a.denominator : Nat) : Int) := by
      unfold RationalNumber.toI32; rw [if_pos hq]
    rw [ht]
    cases hb2 : a.negative
    · simp
    · simp only [if_true]
      rw [wrapI32_neg_small _ hq]
  · intro hnd
    have hne : a.numerator % a.denominator ≠ 0 := fun h => hnd (Nat.dvd_of_mod_eq_zero h)
    unfold RationalNumber.asI32
    rw [if_pos hne]

/-- Witness for C6's amended theorem at the value 3/2 from the spec's boundary
example: `as_i32` fails, and with `Error::ParseError`. -/
theorem c6_as_i32_witness :
    1 ≤ (RationalNumber.mk 3 2 false .fraction).denominator
      ∧ (RationalNumber.mk 3 2 false .fraction).asI32 = .error .ParseError :=
  ⟨by decide, (c6_as_i32_amended _ (by decide)).2.1 (by decide)⟩

/-- Counterexample to claim C6 as stated: `as_i32` on the non-integral value 3/2
returns the `ParseError` kind, not the distinct `NotIntegerError` kind the claim
names. -/
theorem c6_as_i32_cex :
    (RationalNumber.mk 3 2 false .fraction).asI32 = .error .ParseError
      ∧ Error.ParseError ≠ Error.NotIntegerError := by
  exact ⟨rfl, by decide⟩

/-! ### Claim C10: the display format of arithmetic results -/

/-- Value-level agreement of two `RationalNumber`s: all fields except the display
format coincide. -/
def valEq (x y : RationalNumber) : Prop :=
  x.numerator = y.numerator ∧ x.denominator = y.denominator ∧ x.negative = y.negative

theorem setDF_negative (a : RationalNumber) (f : NumberDisplayFormat) :
    (a.setDisplayFormat f).negative = a.negative := rfl

theorem valEq_add_setDF (a b : RationalNumber) (f g : NumberDisplayFormat) :
    valEq ((a.setDisplayFormat f).add (b.setDisplayFormat g)) (a.add b) := by
  have e1 : scaledA (a.setDisplayFormat f) (b.setDisplayFormat g) = scaledA a b := rfl
  have e2 : scaledB (a.setDisplayFormat f) (b.setDisplayFormat g) = scaledB a b := rfl
  have e3 : lcmU32 (a.setDisplayFormat f).denominator (b.setDisplayFormat g).denominator
      = lcmU32 a.denominator b.denominator := rfl
  rw [add_eq, add_eq, e1, e2, e3, setDF_negative, setDF_negative]
  split_ifs <;> exact ⟨rfl, rfl, rfl⟩

/-- Claim C10 (confirmed): every binary arithmetic operation carries `b`'s format
when `a`'s simplified denominator is 1 and `a`'s format otherwise, and neither the
numeric value of the result nor the simplification-aware equality depends on the
operands' display formats. Stated for denominators ≥ 1, the region where the Rust
operations run without panicking. -/
theorem c10_evaluated_format (a b : RationalNumber) (f g : NumberDisplayFormat)
    (ha : 1 ≤ a.denominator) (hb : 1 ≤ b.denominator) :
    ((a.add b).format = if a.simplify.denominator = 1 then b.format else a.format)
    ∧ ((a.sub b).format = if a.simplify.denominator = 1 then b.format else a.format)
    ∧ ((a.mul b).format = if a.simplify.denominator = 1 then b.format else a.format)
    ∧ ((a.div b).format = if a.simplify.denominator = 1 then b.format else a.format)
    ∧ valEq ((a.setDisplayFormat f).add (b.setDisplayFormat g)) (a.add b)
    ∧ valEq ((a.setDisplayFormat f).sub (b.setDisplayFormat g)) (a.sub b)
    ∧ valEq ((a.setDisplayFormat f).mul (b.setDisplayFormat g)) (a.mul b)
    ∧ valEq ((a.setDisplayFormat f).div (b.setDisplayFormat g)) (a.div b)
    ∧ ((a.setDisplayFormat f).beq (b.setDisplayFormat g) = a.beq b) := by
  have hadd : (a.add b).format = evaluatedFormat a b := by
    rw [add_eq]; split_ifs <;> rfl
  have hadd' : (a.sub b).format = evaluatedFormat a b.neg := by
    rw [RationalNumber.sub, add_eq]; split_ifs <;> rfl
  refine ⟨?_, ?_, rfl, rfl, ?_, ?_, ⟨rfl, rfl, rfl⟩, ⟨rfl, rfl, rfl⟩, rfl⟩
  · rw [hadd]; rfl
  · rw [hadd']; rfl
  · exact valEq_add_setDF a b f g
  · have e0 : (b.setDisplayFormat g).neg = b.neg.setDisplayFormat g := rfl
    rw [RationalNumber.sub, RationalNumber.sub, e0]
    exact valEq_add_setDF a b.neg f g

/-- Witness for C10 at `a = 5/4` (mixed format), `b = 1/3` (decimal format). -/
theorem c10_evaluated_format_witness :
    (((RationalNumber.mk 5 4 false .mixed).add
        (RationalNumber.mk 1 3 true (.decimal none))).format
      = if (RationalNumber.mk 5 4 false .mixed).simplify.denominator = 1
        then (RationalNumber.mk 1 3 true (.decimal none)).format
        else (RationalNumber.mk 5 4 false .mixed).format)
    ∧ valEq (((RationalNumber.mk 5 4 false .mixed).setDisplayFormat .fraction).mul
        ((RationalNumber.mk 1 3 true (.decimal none)).setDisplayFormat .mixed))
        ((RationalNumber.mk 5 4 false .mixed).mul
          (RationalNumber.mk 1 3 true (.decimal none))) :=
  ⟨(c10_evaluated_format _ _ .fraction .mixed (by decide) (by decide)).1,
   (c10_evaluated_format _ _ .fraction .mixed (by decide) (by decide)).2.2.2.2.2.2.1⟩

/-! ### Characters, digit strings, and the number-parsing regexes -/

/-- The regex whitespace class `\s` restricted to ASCII (space, tab, line feed,
vertical tab, form feed, carriage return); the grammars under test only involve
ASCII text. -/
def isWs (c : Char) : Bool :=
  decide (c.toNat = 32 ∨ c.toNat = 9 ∨ c.toNat = 10 ∨ c.toNat = 11 ∨ c.toNat = 12 ∨ c.toNat = 13)

/-- The regex digit class `\d` (ASCII digits). -/
def isDigit (c : Char) : Bool := decide (48 ≤ c.toNat ∧ c.toNat ≤ 57)

/-- The decimal digit character for a value below ten (used by `u32` `Display`). -/
def digitChar : Nat → Char
  | 0 => '0' | 1 => '1' | 2 => '2' | 3 => '3' | 4 => '4'
  | 5 => '5' | 6 => '6' | 7 => '7' | 8 => '8' | _ => '9'

/-- Numeric value of a digit character. -/
def dval (c : Char) : Nat := c.toNat - 48

/-- Value of a digit string, as computed by `u32::from_str` (which additionally
range-checks; the range check is modelled at each use site). -/
def digitsVal (l : List Char) : Nat :=
  l.foldl (fun acc c => 10 * acc + dval c) 0

/-- Fuel-driven decimal rendering of a natural number, most significant digit
first; models the `Display`/`to_string` of Rust's unsigned integers. The fuel
`n + 1` always suffices since `n / 10 < n` for `n ≥ 10`. -/
def natReprAux : Nat → Nat → List Char
  | 0, _ => []
  | fuel + 1, n =>
    if n < 10 then [digitChar n]
    else natReprAux fuel (n / 10) ++ [digitChar (n % 10)]

/-- Decimal rendering of a `u32` value (Rust `to_string`). -/
def natRepr (n : Nat) : List Char := natReprAux (n + 1) n

/-- Sign recognition for the `([+-]?)` capture group: the `negative` flag is set
exactly when the captured text is "-". -/
def matchSign (s : List Char) : Bool × List Char :=
  match s with
  | c :: r => if c = '-' then (true, r) else if c = '+' then (false, r) else (false, s)
  | [] => (false, s)

/-- Deterministic embedding of the anchored `MIXED_NUMER_RE` regex of
src/src/rational_number.rs (line 9):
`^\s*([+-]?)\s*(\d+)\s+(\d+)\s*/\s*(\d+)\s*$`. Returns the sign flag and the
three digit-group captures. -/
def matchMixed (s : List Char) : Option (Bool × List Char × List Char × List Char) :=
  let s1 := s.dropWhile isWs
  let p := matchSign s1
  let s3 := p.2.dropWhile isWs
  let whole := s3.takeWhile isDigit
  if whole = [] then none else
  let s4 := s3.dropWhile isDigit
  if s4.takeWhile isWs = [] then none else
  let s5 := s4.dropWhile isWs
  let num := s5.takeWhile isDigit
  if num = [] then none else
  let s6 := (s5.dropWhile isDigit).dropWhile isWs
  match s6 with
  | '/' :: s7 =>
    let s8 := s7.dropWhile isWs
    let den := s8.takeWhile isDigit
    if den = [] then none else
    if (s8.dropWhile isDigit).dropWhile isWs = [] then some (p.1, whole, num, den) else none
  | _ => none

/-- Deterministic embedding of the anchored `FRACTION_RE` regex
(src/src/rational_number.rs line 10): `^\s*([+-]?)\s*(\d+)\s*/\s*(\d+)\s*$`. -/
def matchFraction (s : List Char) : Option (Bool × List Char × List Char) :=
  let s1 := s.dropWhile isWs
  let p := matchSign s1
  let s3 := p.2.dropWhile isWs
  let num := s3.takeWhile isDigit
  if num = [] then none else
  let s4 := (s3.dropWhile isDigit).dropWhile isWs
  match s4 with
  | '/' :: s5 =>
    let s6 := s5.dropWhile isWs
    let den := s6.takeWhile isDigit
    if den = [] then none else
    if (s6.dropWhile isDigit).dropWhile isWs = [] then some (p.1, num, den) else none
  | _ => none

/-- Deterministic embedding of the anchored `DECIMAL_RE` regex
(src/src/rational_number.rs line 11): `^\s*([+-]?)\s*(\d+)\.?(\d*)\s*$`. -/
def matchDecimal (s : List Char) : Option (Bool × List Char × List Char) :=
  let s1 := s.dropWhile isWs
  let p := matchSign s1
  let s3 := p.2.dropWhile isWs
  let whole := s3.takeWhile isDigit
  if whole = [] then none else
  let s4 := s3.dropWhile isDigit
  match s4 with
  | '.' :: s5 =>
    let frac := s5.takeWhile isDigit
    if (s5.dropWhile isDigit).dropWhile isWs = [] then some (p.1, whole, frac) else none
  | _ =>
    if s4.dropWhile isWs = [] then some (p.1, whole, []) else none

/-- Deterministic embedding of the anchored `DECIMAL_RE_2` regex
(src/src/rational_number.rs line 12): `^\s*([+-]?)\s*\.(\d+)\s*$`. -/
def matchDecimal2 (s : List Char) : Option (Bool × List Char) :=
  let s1 := s.dropWhile isWs
  let p := matchSign s1
  let s3 := p.2.dropWhile isWs
  match s3 with
  | '.' :: s4 =>
    let frac := s4.takeWhile isDigit
    if frac = [] then none else
    if (s4.dropWhile isDigit).dropWhile isWs = [] then some (p.1, frac) else none
  | _ => none

/-- Outcome of `RationalNumber::parse`: success, `Err(Error::ParseError)`, or a
Rust panic (a failing `.unwrap()`). -/
inductive ParseOutcome where
  | ok (r : RationalNumber)
  | err (e : Error)
  | panicked
deriving DecidableEq, Repr

/-- Trailing-zero trimming (`trim_end_matches('0')`). -/
def trimTrailingZeros (l : List Char) : List Char :=
  (l.reverse.dropWhile (fun c => c = '0')).reverse

namespace RationalNumber

/-- `parse_decimal` (src/src/rational_number.rs lines 116-139). The whole part is
stripped of leading zeros and re-parsed with an unguarded `.unwrap()`, so an
all-zero whole digit group panics; the fractional digit group is stripped of
trailing zeros (falling back to 0 when `from_str` fails) while the denominator
stays `10^(full fractional length)`; both are then reduced by their gcf and the
whole part is added. -/
def parseDecimal (negative : Bool) (wholeStr fracStr : List Char) : ParseOutcome :=
  let trimmedWhole := wholeStr.dropWhile (fun c => c = '0')
  if trimmedWhole = [] then .panicked
  else if U32MOD ≤ digitsVal trimmedWhole then .panicked
  else
    let whole := digitsVal trimmedWhole
    let trimmedFrac := trimTrailingZeros fracStr
    let remainder := if trimmedFrac = [] then 0
      else if digitsVal trimmedFrac < U32MOD then digitsVal trimmedFrac else 0
    let denominator := wrap32 (10 ^ fracStr.length)
    let f := gcf remainder denominator
    if f = 0 then .panicked
    else
      let remainder := remainder / f
      let denominator := denominator / f
      .ok ⟨wrap32 (denominator * whole + remainder), denominator, negative, .decimal none⟩

/-- `parse` (src/src/rational_number.rs lines 60-114): try the mixed-number,
fraction, decimal and leading-dot-decimal grammars in that order. Digit groups go
through `u32::from_str(...).unwrap()`, which panics when the value exceeds `u32`.
The fraction form keeps `Fraction` format when numerator ≥ denominator and `Mixed`
otherwise; the mixed form always keeps `Mixed`. -/
def parse (s : List Char) : ParseOutcome :=
  match matchMixed s with
  | some (negative, wholeStr, numStr, denStr) =>
    if U32MOD ≤ digitsVal wholeStr ∨ U32MOD ≤ digitsVal numStr ∨ U32MOD ≤ digitsVal denStr then
      .panicked
    else
      .ok ⟨wrap32 (digitsVal denStr * digitsVal wholeStr + digitsVal numStr),
           digitsVal denStr, negative, .mixed⟩
  | none =>
  match matchFraction s with
  | some (negative, numStr, denStr) =>
    if U32MOD ≤ digitsVal numStr ∨ U32MOD ≤ digitsVal denStr then
      .panicked
    else
      .ok ⟨digitsVal numStr, digitsVal denStr, negative,
           if digitsVal denStr ≤ digitsVal numStr then .fraction else .mixed⟩
  | none =>
  match matchDecimal s with
  | some (negative, wholeStr, fracStr) => parseDecimal negative wholeStr fracStr
  | none =>
  match matchDecimal2 s with
  | some (negative, fracStr) => parseDecimal negative ['0'] fracStr
  | none => .err .ParseError

end RationalNumber

/-- `RationalNumber.parse` applied to a string literal. -/
def parseStr (s : String) : ParseOutcome := RationalNumber.parse s.data

/-! ### Decimal rendering -/

namespace RationalNumber

/-- The long-division loop of `as_decimal_str` (src/src/rational_number.rs lines
211-224): multiply the remainder by ten, emit the next digit, and stop with a
repeating-cycle length of `remainders.len() - index` as soon as the new remainder
matches a previously seen one (first occurrence wins). All remainders lie below
the denominator, so fuel `denominator + 1` always suffices. -/
def decDigitsLoop (den : Nat) : Nat → Nat → List Nat → List Char → List Char × Option Nat
  | 0, _, _, s => (s, none)
  | fuel + 1, r, remainders, s =>
    if r = 0 then (s, none)
    else
      let r10 := wrap32 (r * 10)
      let digit := r10 / den
      let r2 := r10 % den
      let s2 := s ++ natRepr digit
      match remainders.findIdx? (fun x => x = r2) with
      | some idx => (s2, some (remainders.length - idx))
      | none => decDigitsLoop den fuel r2 (remainders ++ [r2]) s2

/-- `as_decimal_str` (src/src/rational_number.rs lines 201-227): sign, whole part,
then — when the first remainder is nonzero — a dot followed by long-division
digits, returning the repeating-digit count when a remainder recurs. -/
def asDecimalStr (a : RationalNumber) : List Char × Option Nat :=
  let s := (if a.negative then ['-'] else []) ++ natRepr (a.numerator / a.denominator)
  let r := a.numerator % a.denominator
  if r = 0 then (s, none)
  else decDigitsLoop a.denominator (a.denominator + 1) r [r] (s ++ ['.'])

/-- The `Fraction` rendering `"{sign}{numerator}/{denominator}"`
(src/src/rational_number.rs lines 275-281). -/
def fractionChars (a : RationalNumber) : List Char :=
  (if a.negative then ['-'] else []) ++ natRepr a.numerator ++ '/' :: natRepr a.denominator

/-- `as_str` (src/src/rational_number.rs lines 229-304). A zero numerator renders
as "0"; `Decimal` with no rounding place renders the long-division digits,
inserting the literal marker "bar" before the repeating block; `Fraction` and
`Mixed` render as in the source. The `Decimal(Some(place))` branch of the source
rounds by going through an `f64`; floating-point semantics are not modelled here
(no claim concerns it), so that branch returns the unrounded digit string. -/
def asStr (a : RationalNumber) (fmt : Option NumberDisplayFormat) : List Char :=
  if a.numerator = 0 then ['0']
  else
    match fmt.getD a.format with
    | .decimal none =>
      match a.asDecimalStr with
      | (s, some k) => s.take (s.length - k) ++ 'b' :: 'a' :: 'r' :: s.drop (s.length - k)
      | (s, none) => s
    | .decimal (some _) => a.asDecimalStr.1
    | .fraction => a.fractionChars
    | .mixed =>
      let whole := a.numerator / a.denominator
      let remainder := a.numerator % a.denominator
      if remainder = 0 ∧ whole = 0 then ['0']
      else if a.numerator < a.denominator then a.fractionChars
      else if remainder = 0 then
        (if a.negative then ['-'] else []) ++ natRepr whole
      else
        (if a.negative then ['-'] else []) ++ natRepr whole
          ++ ' ' :: natRepr remainder ++ '/' :: natRepr a.denominator

end RationalNumber

/-! ### Claims C4, C5, C7 and the C8 counterexample: concrete parse/render facts -/

/-- Claim C4 (code bug): `parse_decimal` strips trailing zeros from the fractional
digit group (`trim_end_matches('0')`) without adjusting the `10^(fractional digit
count)` denominator, so parsing "1.10" yields 101/100 (= 1.01) instead of the
denoted 11/10; the same text without the trailing zero parses correctly. -/
theorem c4_parse_decimal_trailing_zero_bug :
    parseStr "1.10" = .ok ⟨101, 100, false, .decimal none⟩
      ∧ (RationalNumber.mk 101 100 false (.decimal none)).beq
          (RationalNumber.mk 11 10 false (.decimal none)) = false
      ∧ parseStr "1.1" = .ok ⟨11, 10, false, .decimal none⟩ := by
  refine ⟨rfl, ?_, rfl⟩
  decide

/-- Claim C5 (code bug): `parse_decimal` applies `trim_start_matches('0')` to the
whole digit group and then `u32::from_str(...).unwrap()`, so every decimal text
whose whole part consists only of zeros — "0.5", "0.15", ".15" (whole part
hard-coded to "0"), even "0" itself — panics instead of returning Ok, while a
nonzero whole part parses fine. The repo's own tests call `parse("0.15")`,
`parse(".15")` and `parse("0")` and expect success. -/
theorem c5_parse_zero_whole_panics :
    parseStr "0.5" = .panicked
      ∧ parseStr "0.15" = .panicked
      ∧ parseStr ".15" = .panicked
      ∧ parseStr "0" = .panicked
      ∧ parseStr "2.5" = .ok ⟨5, 2, false, .decimal none⟩ :=
  ⟨rfl, rfl, rfl, rfl, rfl⟩

/-- Claim C7 (confirmed): long division detects the repeating cycle via remainder
recurrence — 1/7 produces digit string "0.142857" with cycle length 6 and renders
as "0.bar142857" under `Decimal` with no rounding place, while the non-repeating
1/100 renders plainly as "0.01". -/
theorem c7_repeating_decimal_rendering :
    parseStr "1/7" = .ok ⟨1, 7, false, .mixed⟩
      ∧ (RationalNumber.mk 1 7 false .mixed).asDecimalStr = ("0.142857".data, some 6)
      ∧ (RationalNumber.mk 1 7 false .mixed).asStr (some (.decimal none)) = "0.bar142857".data
      ∧ parseStr "1/100" = .ok ⟨1, 100, false, .mixed⟩
      ∧ (RationalNumber.mk 1 100 false .mixed).asStr (some (.decimal none)) = "0.01".data :=
  ⟨rfl, rfl, rfl, rfl, rfl⟩

/-- Counterexample to claim C8 as stated: "0/3" is a valid fraction text accepted
by `parse`, but rendering the parsed value in the matching `Fraction` format
yields "0", not "0/3" (the zero-numerator early return of `as_str`). -/
theorem c8_roundtrip_cex :
    parseStr "0/3" = .ok ⟨0, 3, false, .mixed⟩
      ∧ (RationalNumber.mk 0 3 false .mixed).asStr (some .fraction) = "0".data
      ∧ "0".data ≠ "0/3".data := by
  refine ⟨rfl, rfl, ?_⟩
  decide

/-! ### Digit-string lemmas for the round-trip claim -/

theorem digit_char_facts {c : Char} (h : isDigit c = true) :
    isWs c = false ∧ c ≠ '-' ∧ c ≠ '+' ∧ c ≠ '/' ∧ c ≠ '.' ∧ c ≠ ' ' := by
  simp only [isDigit, decide_eq_true_eq] at h
  refine ⟨?_, ?_, ?_, ?_, ?_, ?_⟩
  · simp only [isWs, decide_eq_false_iff_not]
    omega
  all_goals intro he; subst he; exact absurd h (by decide)

theorem dval_digitChar {k : Nat} (hk : k < 10) : dval (digitChar k) = k := by
  interval_cases k <;> decide

theorem isDigit_digitChar {k : Nat} (hk : k < 10) : isDigit (digitChar k) = true := by
  interval_cases k <;> decide

theorem digitsVal_append_single (A : List Char) (c : Char) :
    digitsVal (A ++ [c]) = 10 * digitsVal A + dval c := by
  simp [digitsVal, List.foldl_append]

theorem natReprAux_props : ∀ fuel n, n < fuel →
    natReprAux fuel n ≠ [] ∧ (∀ c ∈ natReprAux fuel n, isDigit c = true)
      ∧ digitsVal (natReprAux fuel n) = n := by
  intro fuel
  induction fuel with
  | zero => intro n h; omega
  | succ f ih =>
    intro n h
    by_cases h10 : n < 10
    · simp only [natReprAux, if_pos h10]
      refine ⟨by simp, ?_, ?_⟩
      · intro c hc
        have : c = digitChar n := by simpa using hc
        subst this
        exact isDigit_digitChar h10
      · show digitsVal ([] ++ [digitChar n]) = n
        rw [digitsVal_append_single, dval_digitChar h10]
        simp [digitsVal]
    · have hf : n / 10 < f := by omega
      obtain ⟨hne, hdig, hval⟩ := ih (n / 10) hf
      simp only [natReprAux, if_neg h10]
      refine ⟨by simp, ?_, ?_⟩
      · intro c hc
        rcases List.mem_append.mp hc with h1 | h2
        · exact hdig c h1
        · have : c = digitChar (n % 10) := by simpa using h2
          subst this
          exact isDigit_digitChar (Nat.mod_lt _ (by omega))
      · rw [digitsVal_append_single, hval, dval_digitChar (Nat.mod_lt _ (by omega))]
        omega

theorem natRepr_ne_nil (n : Nat) : natRepr n ≠ [] :=
  (natReprAux_props (n + 1) n (Nat.lt_succ_self n)).1

theorem natRepr_digits (n : Nat) : ∀ c ∈ natRepr n, isDigit c = true :=
  (natReprAux_props (n + 1) n (Nat.lt_succ_self n)).2.1

theorem digitsVal_natRepr (n : Nat) : digitsVal (natRepr n) = n :=
  (natReprAux_props (n + 1) n (Nat.lt_succ_self n)).2.2

theorem takeWhile_append_all {p : Char → Bool} {A : List Char} (B : List Char)
    (h : ∀ c ∈ A, p c = true) :
    (A ++ B).takeWhile p = A ++ B.takeWhile p := by
  induction A with
  | nil => simp
  | cons c A ih =>
    have hc : p c = true := h c (List.mem_cons_self _ _)
    simp [List.takeWhile_cons, hc, ih (fun x hx => h x (List.mem_cons_of_mem _ hx))]

theorem dropWhile_append_all {p : Char → Bool} {A : List Char} (B : List Char)
    (h : ∀ c ∈ A, p c = true) :
    (A ++ B).dropWhile p = B.dropWhile p := by
  induction A with
  | nil => simp
  | cons c A ih =>
    have hc : p c = true := h c (List.mem_cons_self _ _)
    simp [List.dropWhile_cons, hc, ih (fun x hx => h x (List.mem_cons_of_mem _ hx))]

theorem dropWhile_eq_self_append {p : Char → Bool} {A : List Char} (B : List Char)
    (hA : A ≠ []) (h : ∀ c ∈ A, p c = false) :
    (A ++ B).dropWhile p = A ++ B := by
  cases A with
  | nil => exact absurd rfl hA
  | cons c A => simp [List.dropWhile_cons, h c (List.mem_cons_self _ _)]

theorem natRepr_dropWhile_isWs (m : Nat) (r : List Char) :
    (natRepr m ++ r).dropWhile isWs = natRepr m ++ r :=
  dropWhile_eq_self_append r (natRepr_ne_nil m)
    (fun c hc => (digit_char_facts (natRepr_digits m c hc)).1)

theorem natRepr_takeWhile_isDigit (m : Nat) (r : List Char) :
    (natRepr m ++ r).takeWhile isDigit = natRepr m ++ r.takeWhile isDigit :=
  takeWhile_append_all r (natRepr_digits m)

theorem natRepr_dropWhile_isDigit (m : Nat) (r : List Char) :
    (natRepr m ++ r).dropWhile isDigit = r.dropWhile isDigit :=
  dropWhile_append_all r (natRepr_digits m)

theorem matchSign_cons_digit {c : Char} (r : List Char) (h : isDigit c = true) :
    matchSign (c :: r) = (false, c :: r) := by
  obtain ⟨-, h1, h2, -, -, -⟩ := digit_char_facts h
  simp [matchSign, h1, h2]

/-- The canonical fraction text `"{sign}{n}/{d}"` (no whitespace, no plus sign,
no leading zeros), the exact shape `as_str(Fraction)` produces. -/
def fracText (negative : Bool) (n d : Nat) : List Char :=
  (if negative then ['-'] else []) ++ (natRepr n ++ '/' :: natRepr d)

/-- The canonical mixed-number text `"{sign}{w} {n}/{d}"`, the exact shape
`as_str(Mixed)` produces for a whole part with a proper remainder. -/
def mixedText (negative : Bool) (w n d : Nat) : List Char :=
  (if negative then ['-'] else []) ++ (natRepr w ++ ' ' :: (natRepr n ++ '/' :: natRepr d))

theorem natRepr_dropWhile_isWs_nil (m : Nat) : (natRepr m).dropWhile isWs = natRepr m := by
  simpa using natRepr_dropWhile_isWs m []

theorem natRepr_takeWhile_isDigit_nil (m : Nat) :
    (natRepr m).takeWhile isDigit = natRepr m := by
  simpa using natRepr_takeWhile_isDigit m []

theorem natRepr_dropWhile_isDigit_nil (m : Nat) : (natRepr m).dropWhile isDigit = [] := by
  simpa using natRepr_dropWhile_isDigit m []

theorem fracText_dropWhile_isWs (negative : Bool) (n d : Nat) :
    (fracText negative n d).dropWhile isWs = fracText negative n d := by
  cases negative
  · show ((natRepr n ++ '/' :: natRepr d).dropWhile isWs) = _
    rw [natRepr_dropWhile_isWs]
    rfl
  · show (('-' :: (natRepr n ++ '/' :: natRepr d)).dropWhile isWs) = _
    rw [List.dropWhile_cons, if_neg (by decide : ¬ (isWs '-' = true))]
    rfl

theorem matchSign_fracText (negative : Bool) (n d : Nat) :
    matchSign (fracText negative n d) = (negative, natRepr n ++ '/' :: natRepr d) := by
  cases negative
  · show matchSign (natRepr n ++ '/' :: natRepr d) = _
    cases hX : natRepr n with
    | nil => exact absurd hX (natRepr_ne_nil n)
    | cons c X =>
      have hc : isDigit c = true := natRepr_digits n c (hX ▸ List.mem_cons_self _ _)
      rw [List.cons_append, matchSign_cons_digit _ hc]
  · show matchSign ('-' :: (natRepr n ++ '/' :: natRepr d)) = _
    simp [matchSign]

theorem matchFraction_fracText (negative : Bool) (n d : Nat) :
    matchFraction (fracText negative n d) = some (negative, natRepr n, natRepr d) := by
  have h1 : ('/' :: natRepr d).takeWhile isDigit = [] := by
    rw [List.takeWhile_cons, if_neg (by decide : ¬ (isDigit '/' = true))]
  have h2 : ('/' :: natRepr d).dropWhile isDigit = '/' :: natRepr d := by
    rw [List.dropWhile_cons, if_neg (by decide : ¬ (isDigit '/' = true))]
  have h3 : ('/' :: natRepr d).dropWhile isWs = '/' :: natRepr d := by
    rw [List.dropWhile_cons, if_neg (by decide : ¬ (isWs '/' = true))]
  simp only [matchFraction, fracText_dropWhile_isWs, matchSign_fracText,
    natRepr_dropWhile_isWs, natRepr_takeWhile_isDigit, natRepr_dropWhile_isDigit,
    h1, h2, h3, List.append_nil, if_neg (natRepr_ne_nil n),
    natRepr_dropWhile_isWs_nil, natRepr_takeWhile_isDigit_nil, natRepr_dropWhile_isDigit_nil,
    if_neg (natRepr_ne_nil d), List.dropWhile_nil]
  simp

theorem matchMixed_fracText (negative : Bool) (n d : Nat) :
    matchMixed (fracText negative n d) = none := by
  have h1 : ('/' :: natRepr d).takeWhile isDigit = [] := by
    rw [List.takeWhile_cons, if_neg (by decide : ¬ (isDigit '/' = true))]
  have h2 : ('/' :: natRepr d).dropWhile isDigit = '/' :: natRepr d := by
    rw [List.dropWhile_cons, if_neg (by decide : ¬ (isDigit '/' = true))]
  have h4 : ('/' :: natRepr d).takeWhile isWs = [] := by
    rw [List.takeWhile_cons, if_neg (by decide : ¬ (isWs '/' = true))]
  simp only [matchMixed, fracText_dropWhile_isWs, matchSign_fracText,
    natRepr_dropWhile_isWs, natRepr_takeWhile_isDigit, natRepr_dropWhile_isDigit,
    h1, h2, h4, List.append_nil, if_neg (natRepr_ne_nil n)]
  simp

theorem takeWhile_isWs_natRepr (m : Nat) (r : List Char) :
    (natRepr m ++ r).takeWhile isWs = [] := by
  cases hX : natRepr m with
  | nil => exact absurd hX (natRepr_ne_nil m)
  | cons c X =>
    have hc : isDigit c = true := natRepr_digits m c (hX ▸ List.mem_cons_self _ _)
    rw [List.cons_append, List.takeWhile_cons, if_neg]
    rw [(digit_char_facts hc).1]
    simp

theorem mixedText_dropWhile_isWs (negative : Bool) (w n d : Nat) :
    (mixedText negative w n d).dropWhile isWs = mixedText negative w n d := by
  cases negative
  · show ((natRepr w ++ ' ' :: (natRepr n ++ '/' :: natRepr d)).dropWhile isWs) = _
    rw [natRepr_dropWhile_isWs]
    rfl
  · show (('-' :: (natRepr w ++ ' ' :: (natRepr n ++ '/' :: natRepr d))).dropWhile isWs) = _
    rw [List.dropWhile_cons, if_neg (by decide : ¬ (isWs '-' = true))]
    rfl

theorem matchSign_mixedText (negative : Bool) (w n d : Nat) :
    matchSign (mixedText negative w n d)
      = (negative, natRepr w ++ ' ' :: (natRepr n ++ '/' :: natRepr d)) := by
  cases negative
  · show matchSign (natRepr w ++ ' ' :: (natRepr n ++ '/' :: natRepr d)) = _
    cases hX : natRepr w with
    | nil => exact absurd hX (natRepr_ne_nil w)
    | cons c X =>
      have hc : isDigit c = true := natRepr_digits w c (hX ▸ List.mem_cons_self _ _)
      rw [List.cons_append, matchSign_cons_digit _ hc]
  · show matchSign ('-' :: (natRepr w ++ ' ' :: (natRepr n ++ '/' :: natRepr d))) = _
    simp [matchSign]

theorem matchMixed_mixedText (negative : Bool) (w n d : Nat) :
    matchMixed (mixedText negative w n d)
      = some (negative, natRepr w, natRepr n, natRepr d) := by
  have h1 : ('/' :: natRepr d).takeWhile isDigit = [] := by
    rw [List.takeWhile_cons, if_neg (by decide : ¬ (isDigit '/' = true))]
  have h2 : ('/' :: natRepr d).dropWhile isDigit = '/' :: natRepr d := by
    rw [List.dropWhile_cons, if_neg (by decide : ¬ (isDigit '/' = true))]
  have h3 : ('/' :: natRepr d).dropWhile isWs = '/' :: natRepr d := by
    rw [List.dropWhile_cons, if_neg (by decide : ¬ (isWs '/' = true))]
  have h5 : (' ' :: (natRepr n ++ '/' :: natRepr d)).takeWhile isDigit = [] := by
    rw [List.takeWhile_cons, if_neg (by decide : ¬ (isDigit ' ' = true))]
  have h6 : (' ' :: (natRepr n ++ '/' :: natRepr d)).dropWhile isDigit
      = ' ' :: (natRepr n ++ '/' :: natRepr d) := by
    rw [List.dropWhile_cons, if_neg (by decide : ¬ (isDigit ' ' = true))]
  have h7 : (' ' :: (natRepr n ++ '/' :: natRepr d)).takeWhile isWs
      = ' ' :: (natRepr n ++ '/' :: natRepr d).takeWhile isWs := by
    rw [List.takeWhile_cons, if_pos (by decide : isWs ' ' = true)]
  have h8 : (' ' :: (natRepr n ++ '/' :: natRepr d)).dropWhile isWs
      = natRepr n ++ '/' :: natRepr d := by
    rw [List.dropWhile_cons, if_pos (by decide : isWs ' ' = true), natRepr_dropWhile_isWs]
  simp only [matchMixed, mixedText_dropWhile_isWs, matchSign_mixedText,
    natRepr_dropWhile_isWs, natRepr_takeWhile_isDigit, natRepr_dropWhile_isDigit,
    h1, h2, h3, h5, h6, h7, h8, takeWhile_isWs_natRepr,
    List.append_nil, if_neg (natRepr_ne_nil n), if_neg (natRepr_ne_nil w),
    natRepr_dropWhile_isWs_nil, natRepr_takeWhile_isDigit_nil, natRepr_dropWhile_isDigit_nil,
    if_neg (natRepr_ne_nil d), List.dropWhile_nil]
  simp

theorem parse_fracText (negative : Bool) (n d : Nat)
    (hn : n < U32MOD) (hd : d < U32MOD) :
    RationalNumber.parse (fracText negative n d)
      = .ok ⟨n, d, negative, if d ≤ n then .fraction else .mixed⟩ := by
  unfold RationalNumber.parse
  rw [matchMixed_fracText, matchFraction_fracText]
  simp only [digitsVal_natRepr]
  rw [if_neg (by omega : ¬ (U32MOD ≤ n ∨ U32MOD ≤ d))]

theorem parse_mixedText (negative : Bool) (w n d : Nat)
    (hw : w < U32MOD) (hn : n < U32MOD) (hd : d < U32MOD) (hfit : d * w + n < U32MOD) :
    RationalNumber.parse (mixedText negative w n d)
      = .ok ⟨d * w + n, d, negative, .mixed⟩ := by
  unfold RationalNumber.parse
  rw [matchMixed_mixedText]
  simp only [digitsVal_natRepr]
  rw [if_neg (by omega : ¬ (U32MOD ≤ w ∨ U32MOD ≤ n ∨ U32MOD ≤ d))]
  show ParseOutcome.ok ⟨wrap32 (d * w + n), d, negative, .mixed⟩ = _
  rw [wrap32, Nat.mod_eq_of_lt hfit]

theorem asStr_fraction_canonical (f : NumberDisplayFormat) (negative : Bool) (n d : Nat)
    (hn : 1 ≤ n) :
    (RationalNumber.mk n d negative f).asStr (some .fraction) = fracText negative n d := by
  unfold RationalNumber.asStr
  rw [if_neg (show ¬ (RationalNumber.mk n d negative f).numerator = 0 by
    show ¬ n = 0; omega)]
  show (RationalNumber.mk n d negative f).fractionChars = _
  simp [RationalNumber.fractionChars, fracText, List.append_assoc]

theorem asStr_mixed_canonical (f : NumberDisplayFormat) (negative : Bool) (w n d : Nat)
    (hw : 1 ≤ w) (hn : 1 ≤ n) (hnd : n < d) :
    (RationalNumber.mk (d * w + n) d negative f).asStr (some .mixed)
      = mixedText negative w n d := by
  have hd : 0 < d := by omega
  have hwpos : 0 < d * w := Nat.mul_pos hd (by omega)
  have hwhole : (d * w + n) / d = w := by
    rw [Nat.add_comm, Nat.add_mul_div_left n w hd, Nat.div_eq_of_lt hnd, Nat.zero_add]
  have hrem : (d * w + n) % d = n := by
    rw [Nat.add_comm, Nat.add_mul_mod_self_left, Nat.mod_eq_of_lt hnd]
  unfold RationalNumber.asStr
  rw [if_neg (show ¬ (RationalNumber.mk (d * w + n) d negative f).numerator = 0 by
    show ¬ (d * w + n) = 0; omega)]
  show (if (d * w + n) % d = 0 ∧ (d * w + n) / d = 0 then ['0']
    else if (RationalNumber.mk (d * w + n) d negative f).numerator
        < (RationalNumber.mk (d * w + n) d negative f).denominator then
      (RationalNumber.mk (d * w + n) d negative f).fractionChars
    else if (d * w + n) % d = 0 then
      (if negative then ['-'] else []) ++ natRepr ((d * w + n) / d)
    else
      (if negative then ['-'] else []) ++ natRepr ((d * w + n) / d)
        ++ ' ' :: natRepr ((d * w + n) % d) ++ '/' :: natRepr d) = _
  rw [hwhole, hrem]
  rw [if_neg (by omega : ¬ (n = 0 ∧ w = 0))]
  rw [if_neg (by
    show ¬ (d * w + n < d)
    have : d ≤ d * w := Nat.le_mul_of_pos_right d (by omega)
    omega)]
  rw [if_neg (by omega : ¬ n = 0)]
  simp [mixedText, List.append_assoc]

/-- Claim C8 (corrected): the parse-then-render round trip returns the input text
exactly for canonical fraction and mixed texts — no surrounding whitespace, sign
absent or "-", digit groups rendered canonically (no leading zeros), nonzero
numerator for the fraction form, and for the mixed form a whole part ≥ 1 and a
proper nonzero fractional part, with all digit groups and the combined numerator
inside the `u32` range. Outside these conditions the round trip fails — e.g.
"0/3" re-renders as "0" (see the counterexample) — so the claim as stated, over
all accepted texts, is false. -/
theorem c8_roundtrip_amended (negative : Bool) (w n d : Nat) :
    (1 ≤ n → n < U32MOD → d < U32MOD →
      RationalNumber.parse (fracText negative n d)
          = .ok ⟨n, d, negative, if d ≤ n then .fraction else .mixed⟩
        ∧ (RationalNumber.mk n d negative (if d ≤ n then .fraction else .mixed)).asStr
            (some .fraction) = fracText negative n d)
    ∧ (1 ≤ w → 1 ≤ n → n < d → w < U32MOD → d < U32MOD → d * w + n < U32MOD →
      RationalNumber.parse (mixedText negative w n d)
          = .ok ⟨d * w + n, d, negative, .mixed⟩
        ∧ (RationalNumber.mk (d * w + n) d negative .mixed).asStr (some .mixed)
            = mixedText negative w n d) := by
  constructor
  · intro hn hnU hdU
    exact ⟨parse_fracText negative n d hnU hdU,
           asStr_fraction_canonical _ negative n d hn⟩
  · intro hw hn hnd hwU hdU hfit
    exact ⟨parse_mixedText negative w n d hwU (by omega) hdU hfit,
           asStr_mixed_canonical _ negative w n d hw hn hnd⟩

/-- Witness for C8's amended theorem at the texts "1/5" and "2 1/5". -/
theorem c8_roundtrip_witness :
    (RationalNumber.parse (fracText false 1 5)
        = .ok ⟨1, 5, false, if 5 ≤ 1 then .fraction else .mixed⟩
      ∧ (RationalNumber.mk 1 5 false (if 5 ≤ 1 then .fraction else .mixed)).asStr
          (some .fraction) = fracText false 1 5)
    ∧ (RationalNumber.parse (mixedText false 2 1 5)
        = .ok ⟨5 * 2 + 1, 5, false, .mixed⟩
      ∧ (RationalNumber.mk (5 * 2 + 1) 5 false .mixed).asStr (some .mixed)
          = mixedText false 2 1 5) :=
  ⟨(c8_roundtrip_amended false 2 1 5).1 (by decide) (by decide) (by decide),
   (c8_roundtrip_amended false 2 1 5).2 (by decide) (by decide) (by decide)
     (by decide) (by decide) (by decide)⟩

/-! ### Expressions and the stepwise evaluator -/

/-- `ExpressionOperation` from src/src/expression.rs (lines 371-378). -/
inductive ExpressionOperation where
  | Exponent | Division | Multiplication | Addition | Subtraction
deriving DecidableEq, Repr

/-- `ExpressionOperation::priority` (src/src/expression.rs lines 392-401). -/
def ExpressionOperation.priority : ExpressionOperation → Nat
  | .Exponent => 2
  | .Division => 1
  | .Multiplication => 1
  | .Addition => 0
  | .Subtraction => 0

mutual
/-- `ExpressionValue` from src/src/expression.rs (lines 115-119): a number or a
nested sub-expression. -/
inductive ExpressionValue where
  | number (n : RationalNumber)
  | expr (e : Expression)
/-- `Expression` from src/src/expression.rs (lines 167-171): a sequence of values
and the operators between them. -/
inductive Expression where
  | mk (values : List ExpressionValue) (operations : List ExpressionOperation)
end

def Expression.values : Expression → List ExpressionValue
  | .mk v _ => v

def Expression.operations : Expression → List ExpressionOperation
  | .mk _ o => o

/-- The value Rust's panicking `ExpressionValue::number()` accessor would never
return; used only for the `panic!` arms, which no theorem's hypotheses reach. -/
def panicRat : RationalNumber := ⟨0, 0, false, .decimal none⟩

/-- `ExpressionValue::number` (src/src/expression.rs lines 129-134); panics in
Rust on a nested expression. -/
def ExpressionValue.asNumber : ExpressionValue → RationalNumber
  | .number n => n
  | .expr _ => panicRat

/-- `pow` (src/src/rational_number.rs lines 141-143) converts both operands to
`f32`, applies real exponentiation and re-parses the float's text. Floating-point
semantics are not modelled in this embedding and no claim depends on the value
computed here, so this placeholder returns its base unchanged. -/
def RationalNumber.pow (a _b : RationalNumber) : RationalNumber := a

/-- The operator dispatch inside `evaluate_next_operation`
(src/src/expression.rs lines 277-283). -/
def applyOperation (op : ExpressionOperation) (a b : RationalNumber) : RationalNumber :=
  match op with
  | .Exponent => a.pow b
  | .Division => a.div b
  | .Multiplication => a.mul b
  | .Addition => a.add b
  | .Subtraction => a.sub b

/-- The operator-selection loop of `evaluate_next_operation`
(src/src/expression.rs lines 261-270): scan left to right, replacing the current
best `(index, priority)` only on a strictly higher priority, so the leftmost
operator of maximal priority wins. -/
def nextOpFoldAux : List ExpressionOperation → Nat → Option (Nat × Nat) → Option (Nat × Nat)
  | [], _, acc => acc
  | op :: rest, i, acc =>
    nextOpFoldAux rest (i + 1)
      (match acc with
       | some (ni, np) => if np < op.priority then some (i, op.priority) else some (ni, np)
       | none => some (i, op.priority))

/-- `Vec::insert` at an index (used for splicing the reduced value back in). -/
def listInsertIdx (i : Nat) (x : ExpressionValue) (l : List ExpressionValue) :
    List ExpressionValue :=
  l.take i ++ x :: l.drop i

/-- `evaluate_next_operation` (src/src/expression.rs lines 251-293): a
single-value expression returns its value; otherwise the leftmost
highest-priority operator and its two operand values are removed, combined by the
matching arithmetic operation, and the result spliced back at that position. -/
def Expression.evalNextOperation (e : Expression) : Option ExpressionValue :=
  if e.values.length = 1 then
    some (e.values.headD (.number panicRat))
  else
    match nextOpFoldAux e.operations 0 none with
    | some (i, _) =>
      let op := e.operations.getD i .Addition
      let ops2 := e.operations.eraseIdx i
      let a := (e.values.getD i (.number panicRat)).asNumber
      let vals1 := e.values.eraseIdx i
      let b := (vals1.getD i (.number panicRat)).asNumber
      let vals2 := vals1.eraseIdx i
      let val := applyOperation op a b
      if vals2.isEmpty then some (.number val)
      else some (.expr (.mk (listInsertIdx i (.number val) vals2) ops2))
    | none => none

/-- The scan of `evaluate_next_expression` (src/src/expression.rs lines 233-249):
the first nested sub-expression on which `step` makes progress is replaced by the
stepped value; values before it are kept. -/
def scanVals (step : Expression → Option ExpressionValue) :
    List ExpressionValue → Option (List ExpressionValue)
  | [] => none
  | v :: rest =>
    match v with
    | .expr sub =>
      match step sub with
      | some v2 => some (v2 :: rest)
      | none => (scanVals step rest).map (fun r => v :: r)
    | .number _ => (scanVals step rest).map (fun r => v :: r)

/-- `evaluate_next` (src/src/expression.rs lines 223-231): first try one step
inside a nested sub-expression, otherwise reduce one top-level operator. The fuel
bounds the nesting depth. -/
def Expression.evalNext : Nat → Expression → Option ExpressionValue
  | 0, _ => none
  | fuel + 1, e =>
    match scanVals (Expression.evalNext fuel) e.values with
    | some vs => some (.expr (.mk vs e.operations))
    | none => e.evalNextOperation

/-- `evaluate` (src/src/expression.rs lines 203-221): repeat `evaluate_next`
until a bare number remains. The first fuel bounds the number of reduction steps,
the second the nesting depth. -/
def Expression.evaluateLoop : Nat → Nat → Expression → Option RationalNumber
  | 0, _, _ => none
  | loopFuel + 1, depthFuel, e =>
    match e.evalNext depthFuel with
    | some (.expr e2) => Expression.evaluateLoop loopFuel depthFuel e2
    | some (.number n) => some n
    | none => some (e.values.headD (.number panicRat)).asNumber

/-! ### Claim C1: leftmost highest-priority reduction -/

/-- The priority of the operator at index `j` (defaulting to the lowest priority
out of range; every use below is guarded by a length bound). -/
def priAt (ops : List ExpressionOperation) (j : Nat) : Nat :=
  (ops.getD j .Addition).priority

/-- Specification-side recursion computing the leftmost index of maximal
priority, used to characterize the code's selection fold. -/
def leftMax : List ExpressionOperation → Option (Nat × Nat)
  | [] => none
  | op :: rest =>
    match leftMax rest with
    | none => some (0, op.priority)
    | some (i, p) => if op.priority < p then some (i + 1, p) else some (0, op.priority)

theorem leftMax_cons_none (op : ExpressionOperation) (rest : List ExpressionOperation)
    (hr : leftMax rest = none) : leftMax (op :: rest) = some (0, op.priority) := by
  simp only [leftMax, hr]

theorem leftMax_cons_lt (op : ExpressionOperation) (rest : List ExpressionOperation)
    (j0 p0 : Nat) (hr : leftMax rest = some (j0, p0)) (hop : op.priority < p0) :
    leftMax (op :: rest) = some (j0 + 1, p0) := by
  simp only [leftMax, hr]
  rw [if_pos hop]

theorem leftMax_cons_ge (op : ExpressionOperation) (rest : List ExpressionOperation)
    (j0 p0 : Nat) (hr : leftMax rest = some (j0, p0)) (hop : ¬ op.priority < p0) :
    leftMax (op :: rest) = some (0, op.priority) := by
  simp only [leftMax, hr]
  rw [if_neg hop]

theorem leftMax_cons_ne_none (op : ExpressionOperation) (rest : List ExpressionOperation) :
    leftMax (op :: rest) ≠ none := by
  cases hr : leftMax rest with
  | none => rw [leftMax_cons_none op rest hr]; simp
  | some jp =>
    obtain ⟨j, p⟩ := jp
    by_cases hop : op.priority < p
    · rw [leftMax_cons_lt op rest j p hr hop]; simp
    · rw [leftMax_cons_ge op rest j p hr hop]; simp

theorem eq_nil_of_leftMax_eq_none {ops : List ExpressionOperation}
    (h : leftMax ops = none) : ops = [] := by
  cases ops with
  | nil => rfl
  | cons op rest => exact absurd h (leftMax_cons_ne_none op rest)

theorem nextOpFoldAux_some : ∀ (ops : List ExpressionOperation) (j p i bi bp : Nat),
    leftMax ops = some (j, p) →
    nextOpFoldAux ops i (some (bi, bp))
      = if bp < p then some (i + j, p) else some (bi, bp) := by
  intro ops
  induction ops with
  | nil => intro j p i bi bp h; exact absurd h (by simp [leftMax])
  | cons op rest ih =>
    intro j p i bi bp h
    show nextOpFoldAux rest (i + 1)
        (if bp < op.priority then some (i, op.priority) else some (bi, bp)) = _
    cases hr : leftMax rest with
    | none =>
      have hrest : rest = [] := eq_nil_of_leftMax_eq_none hr
      have h2 := (leftMax_cons_none op rest hr).symm.trans h
      simp only [Option.some.injEq, Prod.mk.injEq] at h2
      obtain ⟨hj, hp⟩ := h2
      subst hj
      subst hp
      subst hrest
      by_cases hb : bp < op.priority
      · rw [if_pos hb]
        show some (i, op.priority) = _
        rw [if_pos hb, Nat.add_zero]
      · rw [if_neg hb]
        show some (bi, bp) = _
        rw [if_neg hb]
    | some jp0 =>
      obtain ⟨j0, p0⟩ := jp0
      by_cases hop : op.priority < p0
      · have h2 := (leftMax_cons_lt op rest j0 p0 hr hop).symm.trans h
        simp only [Option.some.injEq, Prod.mk.injEq] at h2
        obtain ⟨hj, hp⟩ := h2
        subst hj
        subst hp
        by_cases hb : bp < op.priority
        · rw [if_pos hb, ih j0 p0 (i + 1) i op.priority hr, if_pos hop,
            if_pos (by omega : bp < p0), show i + 1 + j0 = i + (j0 + 1) by omega]
        · rw [if_neg hb, ih j0 p0 (i + 1) bi bp hr]
          by_cases hbp : bp < p0
          · rw [if_pos hbp, if_pos hbp, show i + 1 + j0 = i + (j0 + 1) by omega]
          · rw [if_neg hbp, if_neg hbp]
      · have h2 := (leftMax_cons_ge op rest j0 p0 hr hop).symm.trans h
        simp only [Option.some.injEq, Prod.mk.injEq] at h2
        obtain ⟨hj, hp⟩ := h2
        subst hj
        subst hp
        by_cases hb : bp < op.priority
        · rw [if_pos hb, ih j0 p0 (i + 1) i op.priority hr,
            if_neg hop, if_pos hb, Nat.add_zero]
        · rw [if_neg hb, ih j0 p0 (i + 1) bi bp hr, if_neg (by omega : ¬ bp < p0),
            if_neg hb]

theorem nextOpFoldAux_eq_leftMax (ops : List ExpressionOperation) :
    nextOpFoldAux ops 0 none = leftMax ops := by
  cases ops with
  | nil => rfl
  | cons op rest =>
    show nextOpFoldAux rest 1 (some (0, op.priority)) = _
    cases hr : leftMax rest with
    | none =>
      have hrest : rest = [] := eq_nil_of_leftMax_eq_none hr
      subst hrest
      rw [leftMax_cons_none op [] hr]
      rfl
    | some jp0 =>
      obtain ⟨j0, p0⟩ := jp0
      by_cases hop : op.priority < p0
      · rw [nextOpFoldAux_some rest j0 p0 1 0 op.priority hr, if_pos hop,
          leftMax_cons_lt op rest j0 p0 hr hop, show 1 + j0 = j0 + 1 by omega]
      · rw [nextOpFoldAux_some rest j0 p0 1 0 op.priority hr, if_neg hop,
          leftMax_cons_ge op rest j0 p0 hr hop]

theorem leftMax_spec : ∀ (ops : List ExpressionOperation) (i p : Nat),
    leftMax ops = some (i, p) →
      i < ops.length ∧ priAt ops i = p
        ∧ (∀ j, j < i → priAt ops j < p)
        ∧ (∀ j, j < ops.length → priAt ops j ≤ p) := by
  intro ops
  induction ops with
  | nil => intro i p h; exact absurd h (by simp [leftMax])
  | cons op rest ih =>
    intro i p h
    cases hr : leftMax rest with
    | none =>
      have hrest : rest = [] := eq_nil_of_leftMax_eq_none hr
      have h2 := (leftMax_cons_none op rest hr).symm.trans h
      simp only [Option.some.injEq, Prod.mk.injEq] at h2
      obtain ⟨hj, hp⟩ := h2
      subst hj
      subst hp
      subst hrest
      refine ⟨by simp, rfl, by omega, ?_⟩
      intro j hj
      cases j with
      | zero => exact Nat.le_refl _
      | succ k => simp at hj
    | some jp0 =>
      obtain ⟨j0, p0⟩ := jp0
      obtain ⟨hlen, hat, hlt, hle⟩ := ih j0 p0 hr
      by_cases hop : op.priority < p0
      · have h2 := (leftMax_cons_lt op rest j0 p0 hr hop).symm.trans h
        simp only [Option.some.injEq, Prod.mk.injEq] at h2
        obtain ⟨hj, hp⟩ := h2
        subst hj
        subst hp
        refine ⟨by simp; omega, ?_, ?_, ?_⟩
        · show priAt (op :: rest) (j0 + 1) = p0
          simp only [priAt, List.getD_cons_succ]
          exact hat
        · intro j hjlt
          cases j with
          | zero => simpa [priAt] using hop
          | succ k =>
            simp only [priAt, List.getD_cons_succ]
            exact hlt k (by omega)
        · intro j hjlt
          cases j with
          | zero => simp only [priAt, List.getD_cons_zero]; omega
          | succ k =>
            simp only [priAt, List.getD_cons_succ]
            exact hle k (by simpa using hjlt)
      · have h2 := (leftMax_cons_ge op rest j0 p0 hr hop).symm.trans h
        simp only [Option.some.injEq, Prod.mk.injEq] at h2
        obtain ⟨hj, hp⟩ := h2
        subst hj
        subst hp
        refine ⟨by simp, by simp [priAt], by omega, ?_⟩
        intro j hjlt
        cases j with
        | zero => simp [priAt]
        | succ k =>
          simp only [priAt, List.getD_cons_succ]
          have h3 := hle k (by simpa using hjlt)
          simp only [priAt] at h3
          omega

/-- Claim C1 (confirmed): on any nonempty operator list the selection fold of
`evaluate_next_operation` picks exactly the leftmost index of maximal priority
(priorities: Exponent 2, Multiplication = Division 1, Addition = Subtraction 0) —
strictly higher priority than everything to its left, at least as high as
everything else; and the expression with values 8, 4, 2 and operations Division,
Multiplication evaluates to 16/4 = 4 (division applied first, left to right), not
to 8/8 = 1. -/
theorem c1_evaluator_reduces_leftmost_highest_priority :
    (∀ ops : List ExpressionOperation, ops ≠ [] →
      ∃ i p, nextOpFoldAux ops 0 none = some (i, p)
        ∧ i < ops.length
        ∧ priAt ops i = p
        ∧ (∀ j, j < i → priAt ops j < p)
        ∧ (∀ j, j < ops.length → priAt ops j ≤ p))
    ∧ Expression.evaluateLoop 4 4
        (.mk [.number (RationalNumber.fromU32 8), .number (RationalNumber.fromU32 4),
              .number (RationalNumber.fromU32 2)]
             [.Division, .Multiplication])
        = some ⟨16, 4, false, .decimal none⟩
    ∧ (RationalNumber.mk 16 4 false (.decimal none)).beq (RationalNumber.fromU32 4) = true
    ∧ (RationalNumber.mk 16 4 false (.decimal none)).beq (RationalNumber.fromU32 1) = false := by
  refine ⟨?_, rfl, by decide, by decide⟩
  intro ops hne
  cases hlm : leftMax ops with
  | none => exact absurd (eq_nil_of_leftMax_eq_none hlm) hne
  | some ip =>
    obtain ⟨i, p⟩ := ip
    obtain ⟨hlen, hat, hlt, hle⟩ := leftMax_spec ops i p hlm
    exact ⟨i, p, (nextOpFoldAux_eq_leftMax ops).trans hlm, hlen, hat, hlt, hle⟩

/-- Witness for C1's general conjunct at the operator list of "8/4*2": the fold
selects index 0 (the division). -/
theorem c1_evaluator_witness :
    ∃ i p, nextOpFoldAux [ExpressionOperation.Division, ExpressionOperation.Multiplication] 0 none
        = some (i, p)
      ∧ i < ([ExpressionOperation.Division, ExpressionOperation.Multiplication] : List _).length
      ∧ priAt [ExpressionOperation.Division, ExpressionOperation.Multiplication] i = p
      ∧ (∀ j, j < i
          → priAt [ExpressionOperation.Division, ExpressionOperation.Multiplication] j < p)
      ∧ (∀ j, j < ([ExpressionOperation.Division, ExpressionOperation.Multiplication]
            : List _).length
          → priAt [ExpressionOperation.Division, ExpressionOperation.Multiplication] j ≤ p) :=
  c1_evaluator_reduces_leftmost_highest_priority.1
    [ExpressionOperation.Division, ExpressionOperation.Multiplication] (by simp)

/-! ### Claim C9: operator recognition keeps the longest match -/

/-- One anchored operator regex `^\s*SYM\s*$` applied after the leading `\s*` has
been consumed: the symbol must follow, and only whitespace may remain. -/
def symThenWs (sym : List Char) (s : List Char) : Bool :=
  sym.isPrefixOf s && (s.drop sym.length).all isWs

/-- The five anchored operator regexes of src/src/expression.rs (lines 8-12),
tried in the order of the source's if-else chain (lines 36-46); `-:` and `/` are
the two spellings of division. The regex token classes are disjoint, so the
deterministic test is equivalent to the regex matches. -/
def checkOp (s : List Char) : Option ExpressionOperation :=
  let s1 := s.dropWhile isWs
  if symThenWs ['^'] s1 then some .Exponent
  else if symThenWs ['/'] s1 || symThenWs ['-', ':'] s1 then some .Division
  else if symThenWs ['*'] s1 then some .Multiplication
  else if symThenWs ['+'] s1 then some .Addition
  else if symThenWs ['-'] s1 then some .Subtraction
  else none

/-- One iteration of the prefix scan of `parse_first_operation`
(src/src/expression.rs lines 34-47): a matching prefix replaces the remembered
`(length, operator)` pair. -/
def pfoStep (s : List Char) (acc : Option (Nat × ExpressionOperation)) (i : Nat) :
    Option (Nat × ExpressionOperation) :=
  match checkOp (s.take i) with
  | some op => some (i, op)
  | none => acc

/-- The scan over the prefix lengths `0..m` (exclusive). -/
def pfoFold (s : List Char) (m : Nat) : Option (Nat × ExpressionOperation) :=
  (List.range m).foldl (pfoStep s) none

/-- `parse_first_operation` (src/src/expression.rs lines 25-49): try every prefix
length `0..=len` and keep the last (longest) successful operator match. -/
def parseFirstOperation (s : List Char) : Option (Nat × ExpressionOperation) :=
  pfoFold s (s.length + 1)

theorem pfoFold_succ (s : List Char) (m : Nat) :
    pfoFold s (m + 1) = pfoStep s (pfoFold s m) m := by
  unfold pfoFold
  rw [List.range_succ, List.foldl_append]
  rfl

theorem pfoFold_congr_none : ∀ (d : Nat) (s : List Char) (m0 : Nat),
    (∀ i, m0 ≤ i → i < m0 + d → checkOp (s.take i) = none) →
    pfoFold s (m0 + d) = pfoFold s m0 := by
  intro d
  induction d with
  | zero => intro s m0 _; rfl
  | succ d ih =>
    intro s m0 h
    show pfoFold s ((m0 + d) + 1) = _
    rw [pfoFold_succ]
    show pfoStep s (pfoFold s (m0 + d)) (m0 + d) = _
    rw [pfoStep, h (m0 + d) (by omega) (by omega)]
    exact ih s m0 (fun i h1 h2 => h i h1 (by omega))

theorem pfoFold_last (s : List Char) (m : Nat) (op : ExpressionOperation)
    (h : checkOp (s.take m) = some op) : pfoFold s (m + 1) = some (m, op) := by
  rw [pfoFold_succ, pfoStep, h]

theorem checkOp_dash_colon (r : List Char) :
    checkOp ('-' :: ':' :: r) = if r.all isWs then some .Division else none := by
  have w1 : isWs '-' = false := by decide
  have w2 : isWs ':' = false := by decide
  have e1 : (('^' : Char) == '-') = false := by decide
  have e2 : (('/' : Char) == '-') = false := by decide
  have e3 : (('-' : Char) == '-') = true := by decide
  have e4 : ((':' : Char) == ':') = true := by decide
  have e5 : (('*' : Char) == '-') = false := by decide
  have e6 : (('+' : Char) == '-') = false := by decide
  have d2 : List.drop (['-', ':'] : List Char).length ('-' :: ':' :: r) = r := rfl
  have d1 : List.drop (['-'] : List Char).length ('-' :: ':' :: r) = ':' :: r := rfl
  simp only [checkOp, symThenWs, List.dropWhile_cons, w1, Bool.false_eq_true, if_false,
    List.isPrefixOf, e1, e2, e3, e4, e5, e6, Bool.false_and, Bool.true_and,
    List.isPrefixOf_nil_left, d1, d2, List.all_cons, w2,
    Bool.and_true, Bool.and_false, Bool.or_false, Bool.false_or, if_false]

theorem dropWhile_head_false {p : Char → Bool} :
    ∀ (l : List Char) (c : Char) (r : List Char), l.dropWhile p = c :: r → p c = false := by
  intro l
  induction l with
  | nil => intro c r h; simp at h
  | cons a l ih =>
    intro c r h
    rw [List.dropWhile_cons] at h
    by_cases ha : p a = true
    · rw [if_pos ha] at h
      exact ih c r h
    · rw [if_neg ha] at h
      have hac : a = c := (List.cons.injEq a l c r ▸ h).1
      rw [← hac]
      simpa using ha

theorem take_two_plus (t : List Char) (j : Nat) :
    ('-' :: ':' :: t).take (2 + j) = '-' :: ':' :: t.take j := by
  rw [Nat.add_comm 2 j]
  rfl

theorem takeWhile_length_le_self (t : List Char) :
    (t.takeWhile isWs).length ≤ t.length := by
  have h := congrArg List.length (List.takeWhile_append_dropWhile isWs t)
  simp only [List.length_append] at h
  omega

theorem take_takeWhile_length (t : List Char) :
    t.take (t.takeWhile isWs).length = t.takeWhile isWs := by
  obtain ⟨W, hW⟩ : ∃ W, t.takeWhile isWs = W := ⟨_, rfl⟩
  obtain ⟨R, hR⟩ : ∃ R, t.dropWhile isWs = R := ⟨_, rfl⟩
  have hsplit : W ++ R = t := by
    rw [← hW, ← hR]
    exact List.takeWhile_append_dropWhile isWs t
  rw [hW]
  conv_lhs => rw [← hsplit]
  rw [List.take_append_eq_append_take]
  simp

theorem take_all_ws_false (t : List Char) (j : Nat)
    (hj : (t.takeWhile isWs).length < j) (hjn : j ≤ t.length) :
    (t.take j).all isWs = false := by
  obtain ⟨W, hW⟩ : ∃ W, t.takeWhile isWs = W := ⟨_, rfl⟩
  rw [hW] at hj
  have hsplit : W ++ t.dropWhile isWs = t := by
    rw [← hW]
    exact List.takeWhile_append_dropWhile isWs t
  cases hR : t.dropWhile isWs with
  | nil =>
    exfalso
    have h2 : W.length = t.length := by
      conv_rhs => rw [← hsplit]
      simp [hR]
    omega
  | cons c R =>
    have hc : isWs c = false := dropWhile_head_false t c R hR
    rw [hR] at hsplit
    have hlen : W.length ≤ j := by omega
    have htake : t.take j = W ++ (c :: R).take (j - W.length) := by
      conv_lhs => rw [← hsplit]
      rw [List.take_append_eq_append_take, List.take_of_length_le hlen]
    rw [htake]
    cases hd : j - W.length with
    | zero => omega
    | succ d =>
      rw [List.take_succ_cons, List.all_append, List.all_cons, hc]
      simp

theorem checkOp_ws_prefix (U z : List Char) (hU : ∀ c ∈ U, isWs c = true) :
    checkOp (U ++ z) = checkOp z := by
  unfold checkOp
  rw [dropWhile_append_all z hU]

/-- Claim C9 (confirmed): on any input whose leading non-whitespace characters
begin with the two-character division spelling "-:", `parse_first_operation`
keeps the longest successful prefix match and returns Division — not Subtraction
— with the returned length consuming both characters (together with the
surrounding whitespace the anchored `\s*` groups absorb). -/
theorem c9_division_longest_match (U t : List Char) (hU : U.all isWs = true) :
    parseFirstOperation (U ++ '-' :: ':' :: t)
      = some (U.length + (2 + (t.takeWhile isWs).length), ExpressionOperation.Division) := by
  have hUmem : ∀ c ∈ U, isWs c = true := List.all_eq_true.mp hU
  have hk : (t.takeWhile isWs).length ≤ t.length := takeWhile_length_le_self t
  have hslen : (U ++ '-' :: ':' :: t).length = U.length + (2 + t.length) := by
    simp only [List.length_append, List.length_cons]
    omega
  have htake : ∀ i, U.length ≤ i →
      (U ++ '-' :: ':' :: t).take i = U ++ ('-' :: ':' :: t).take (i - U.length) := by
    intro i hi
    rw [List.take_append_eq_append_take, List.take_of_length_le hi]
  have hnone : ∀ i, U.length + (2 + (t.takeWhile isWs).length) + 1 ≤ i →
      i < (U.length + (2 + (t.takeWhile isWs).length) + 1)
            + (t.length - (t.takeWhile isWs).length) →
      checkOp ((U ++ '-' :: ':' :: t).take i) = none := by
    intro i h1 h2
    rw [htake i (by omega), checkOp_ws_prefix U _ hUmem]
    have hj : i - U.length = 2 + (i - U.length - 2) := by omega
    rw [hj, take_two_plus, checkOp_dash_colon, if_neg (by
      rw [take_all_ws_false t (i - U.length - 2) (by omega) (by omega)]
      simp)]
  have hdiv : checkOp ((U ++ '-' :: ':' :: t).take
        (U.length + (2 + (t.takeWhile isWs).length)))
      = some .Division := by
    rw [htake _ (by omega), checkOp_ws_prefix U _ hUmem]
    have hsub : U.length + (2 + (t.takeWhile isWs).length) - U.length
        = 2 + (t.takeWhile isWs).length := by omega
    rw [hsub, take_two_plus, checkOp_dash_colon, if_pos]
    rw [take_takeWhile_length]
    exact List.all_eq_true.mpr (fun c hc => List.mem_takeWhile_imp hc)
  show pfoFold _ ((U ++ '-' :: ':' :: t).length + 1) = _
  have hlen2 : (U ++ '-' :: ':' :: t).length + 1
      = (U.length + (2 + (t.takeWhile isWs).length) + 1)
          + (t.length - (t.takeWhile isWs).length) := by
    rw [hslen]
    omega
  rw [hlen2, pfoFold_congr_none _ _ _ hnone, pfoFold_last _ _ _ hdiv]

/-- Witness for C9 at the input " -:8": one whitespace consumed before the
division token, both token characters consumed, Division returned. -/
theorem c9_division_longest_match_witness :
    parseFirstOperation ([' '] ++ '-' :: ':' :: ['8'])
      = some (([' '] : List Char).length
          + (2 + ((['8'] : List Char).takeWhile isWs).length), ExpressionOperation.Division) :=
  c9_division_longest_match [' '] ['8'] (by decide)
